import Mathlib

/-!
Verification of the MeSH-to-OBO converter (MeSH2OBO notebook).

The notebook reads MeSH ASCII records, builds a map from tree positions
to unique concept ids (`parentList`), resolves each tree position's
parent (`getParent`) and emits one OBO stanza per record.  The
definitions below are a shallow embedding of that code: records are
ordered lists of (key, value) field pairs, the generator is a function
from the list of input lines to a list of records (a Python exception is
`Except.error ()`), the process-wide dict is a function
`String → Option String`, and the streaming printer returns the lines it
printed together with a flag saying whether it finished without raising.
-/

/-- A parsed MeSH record: the ordered (field key, field value) pairs, as
appended by `entry[key].append(value)` on the `defaultdict(list)`. -/
abbrev MRecord := List (String × String)

/-- `entry[k]` of the record as a `defaultdict(list)`: the values appended
under key `k`, in append order (an absent key yields `[]`). -/
def getValues (r : MRecord) (k : String) : List String :=
  (List.filter (fun kv => kv.1 == k) r).map Prod.snd

/-- The hardcoded `topLevelTerms` table of the notebook, in its literal
(insertion) order. -/
def topLevelTerms : List (String × String) :=
  [("A", "Anatomy"),
   ("B", "Organisms"),
   ("C", "Diseases"),
   ("D", "Chemicals and Drugs"),
   ("E", "Analytical, Diagnostic and Therapeutic Techniques, and Equipment"),
   ("F", "Psychiatry and Psychology"),
   ("G", "Phenomena and Processes"),
   ("H", "Disciplines and Occupations"),
   ("I", "Anthropology, Education, Sociology, and Social Phenomena"),
   ("J", "Technology, Industry, and Agriculture"),
   ("K", "Humanities"),
   ("L", "Information Science"),
   ("M", "Named Groups"),
   ("N", "Health Care"),
   ("V", "Publication Characteristics"),
   ("Z", "Geographicals")]

/-- `provideEntry(id, name)` of the notebook: a record with
`UI = [id]` and `MH = [name]`. -/
def provideEntry (id name : String) : MRecord :=
  [("UI", id), ("MH", name)]

/-- Python's `line.strip()`: drop whitespace from both ends. -/
def pstrip (s : String) : String :=
  String.mk (((s.data.dropWhile Char.isWhitespace).reverse.dropWhile
    Char.isWhitespace).reverse)

/-- Helper for `line.partition(" = ")`: split a character list at the
first occurrence of the three characters space, equals, space; `none`
when the separator does not occur. -/
def partAux : List Char → Option (List Char × List Char)
  | ' ' :: '=' :: ' ' :: rest => some ([], rest)
  | c :: rest =>
    match partAux rest with
    | some (a, b) => some (c :: a, b)
    | none => none
  | [] => none

/-- `line.partition(" = ")` restricted to the (key, value) pair the
notebook keeps: `(line, "")` when the separator is absent, otherwise the
text before and after its first occurrence. -/
def partitionEq (s : String) : String × String :=
  match partAux s.data with
  | some (a, b) => (String.mk a, String.mk b)
  | none => (s, "")

/-- The line-scanning loop of `readMeSH`, after the top-level records:
`entry` is the current record buffer (`none` before the first sentinel).
A field line with no open buffer raises a `TypeError`
(`entry[key].append` on `None`), modelled as `Except.error ()`. -/
def readLoop : List String → Option MRecord → Except Unit (List MRecord)
  | [], entry =>
    Except.ok
      (match entry with
       | some e => if e = [] then [] else [e]
       | none => [])
  | l :: ls, entry =>
    let line := pstrip l
    if line = "" then readLoop ls entry
    else if line = "*NEWRECORD" then
      match entry with
      | some e =>
        if e = [] then readLoop ls (some [])
        else
          match readLoop ls (some []) with
          | Except.ok rest => Except.ok (e :: rest)
          | Except.error x => Except.error x
      | none => readLoop ls (some [])
    else
      match entry with
      | none => Except.error ()
      | some e => readLoop ls (some (e ++ [partitionEq line]))

/-- `readMeSH(fin)` of the notebook: first one record per
`topLevelTerms` entry via `provideEntry`, then the records scanned from
the input lines. -/
def readMeSH (lines : List String) : Except Unit (List MRecord) :=
  match readLoop lines none with
  | Except.ok rs => Except.ok (topLevelTerms.map (fun p => provideEntry p.1 p.2) ++ rs)
  | Except.error x => Except.error x

/-- The process-wide `parentList` dict: tree position to unique id. -/
abbrev Smap := String → Option String

/-- The empty dict. -/
def emptyS : Smap := fun _ => none

/-- `parentList[k] = v`: dict assignment, overwriting any earlier value. -/
def smapInsert (m : Smap) (k v : String) : Smap :=
  fun x => if x = k then some v else m x

/-- The inner loop `for tree in entry['MN']: parentList[tree] = entry['UI'][0]`
once `entry['UI'][0]` is known to be `ui`. -/
def insertTrees (m : Smap) (trees : List String) (ui : String) : Smap :=
  trees.foldl (fun acc t => smapInsert acc t ui) m

/-- One record's contribution to `parentList`.  When the record has tree
positions but no `UI` value, `entry['UI'][0]` raises `IndexError` before
any assignment, modelled as `none`. -/
def buildStep (m : Smap) (r : MRecord) : Option Smap :=
  match getValues r "MN" with
  | [] => some m
  | trees =>
    match (getValues r "UI").head? with
    | none => none
    | some ui => some (insertTrees m trees ui)

/-- The build loop over a record sequence, threading the dict. -/
def buildFrom (m : Smap) : List MRecord → Option Smap
  | [] => some m
  | r :: rs =>
    match buildStep m r with
    | none => none
    | some m' => buildFrom m' rs

/-- The whole `parentList` build pass of the notebook. -/
def buildParentList (rs : List MRecord) : Option Smap :=
  buildFrom emptyS rs

/-- `re.sub('\.[^\.]+$', '', id)`: when the string has a dot followed by
a nonempty run of non-dot characters reaching the end, drop that final
dot and run; otherwise (no dot, or the string ends in a dot) the regex
has no match and the string is unchanged. -/
def stripLastSegment (s : String) : String :=
  let r := s.data.reverse
  let seg := r.takeWhile (fun c => c != '.')
  let rest := r.dropWhile (fun c => c != '.')
  if seg = [] ∨ rest = [] then s else String.mk (rest.tail.reverse)

/-- `id[0]` as the one-character string Python returns. -/
def firstCharStr (s : String) : String :=
  match s.data with
  | [] => ""
  | c :: _ => String.mk [c]

/-- `getParent(id)` of the notebook.  `parentList[...]` on a missing key
raises `KeyError`, modelled as `Except.error ()`; otherwise the function
returns `None` or a parent id, modelled as `Except.ok`. -/
def getParent (pl : Smap) (id : String) : Except Unit (Option String) :=
  if id.data.contains '.' then
    match pl (stripLastSegment id) with
    | some v => Except.ok (some v)
    | none => Except.error ()
  else if id.data.length = 3 then Except.ok (some (firstCharStr id))
  else Except.ok none

/-- `re.sub('\|.*', '', syn)`: keep everything before the first `|`. -/
def stripPipe (s : String) : String :=
  String.mk (s.data.takeWhile (fun c => c != '|'))

/-- One emitted synonym line: `synonym: "<stripped>" EXACT []`. -/
def synLine (v : String) : String :=
  "synonym: \"" ++ stripPipe v ++ "\" EXACT []"

/-- The `is_a` emission loop of the notebook: walk the tree positions,
keeping the `done` list of already-printed parents.  The returned flag is
`false` when the loop raises: either `getParent` raises `KeyError`, or
`parentId` is `None` and `"is_a: " + parentId` raises `TypeError`; the
lines printed before the exception are still returned. -/
def emitIsa (pl : Smap) : List String → List (Option String) → List String × Bool
  | [], _ => ([], true)
  | t :: ts, done =>
    match getParent pl t with
    | Except.error _ => ([], false)
    | Except.ok p =>
      if p ∈ done then emitIsa pl ts done
      else
        match p with
        | none => ([], false)
        | some pid =>
          let res := emitIsa pl ts (p :: done)
          (("is_a: " ++ pid) :: res.1, res.2)

/-- The per-record body of the output loop: the lines printed for one
record, with a flag saying whether the body ran to completion (missing
`UI`/`MH` values raise `IndexError` after the earlier lines were already
printed). -/
def emitRecord (pl : Smap) (r : MRecord) : List String × Bool :=
  match (getValues r "UI").head? with
  | none => (["[Term]"], false)
  | some ui =>
    match (getValues r "MH").head? with
    | none => (["[Term]", "id: " ++ ui], false)
    | some mh =>
      let pre := ["[Term]", "id: " ++ ui, "name: " ++ mh] ++
        (getValues r "ENTRY").map synLine
      let isa := emitIsa pl (getValues r "MN") []
      if isa.2 then (pre ++ isa.1 ++ [""], true) else (pre ++ isa.1, false)

/-- The parent an `MN` entry resolves to, when `getParent` does not
raise: `some` parent id, or `none` for both the `None` result and the
raising case. -/
def resolvedParent (pl : Smap) (t : String) : Option String :=
  match getParent pl t with
  | Except.ok p => p
  | Except.error _ => none

/-- Order-preserving value deduplication: keep each element's first
occurrence, skipping those already in `seen`. -/
def dedupFirst : List String → List String → List String
  | [], _ => []
  | x :: xs, seen =>
    if x ∈ seen then dedupFirst xs seen else x :: dedupFirst xs (x :: seen)

/-- Whether a line is an `is_a` line: it starts with `is_a: `. -/
def isIsaLine (s : String) : Bool :=
  List.isPrefixOf "is_a: ".data s.data

/-- Claim C1: for every tree-position string containing at least one `.`
whose parent prefix (the final dot-delimited segment stripped) is a key
of the tree-position-to-concept-id map, `getParent` returns the concept
id stored in the map under that parent prefix. -/
theorem getParent_dotted_hit (pl : Smap) (id v : String)
    (h1 : id.data.contains '.' = true)
    (h2 : pl (stripLastSegment id) = some v) :
    getParent pl id = Except.ok (some v) := by
  have h1' : '.' ∈ id.data := by simpa using h1
  simp [getParent, h1', h2]

theorem getParent_dotted_hit_witness :
    getParent (fun x => if x = "C06" then some "D5" else none) "C06.198" =
      Except.ok (some "D5") :=
  getParent_dotted_hit _ "C06.198" "D5" (by decide) (by decide)

/-- Claim C2, counterexample: on a tree position containing a `.` whose
parent prefix is absent from the map, `getParent` does not return an
optional id: `parentList[...]` raises `KeyError` (here `Except.error`),
an unhandled crash rather than an observable `none`. -/
theorem getParent_dangling_raises :
    getParent emptyS "A.B" = Except.error () := rfl

/-- Claim C2, amended: `getParent` returns a concept id or none on every
dot-free position, and on a dotted position it raises `KeyError`
(modelled `Except.error`) exactly when the parent prefix is absent from
the map; the dangling case is a crash, not a returned `none`. -/
theorem getParent_error_iff (pl : Smap) (id : String) :
    getParent pl id = Except.error () ↔
      id.data.contains '.' = true ∧ pl (stripLastSegment id) = none := by
  unfold getParent
  by_cases h1 : '.' ∈ id.data
  · cases h : pl (stripLastSegment id) <;> simp [h1, h]
  · by_cases h2 : id.length = 3 <;> simp [h1, h2]

/-- Claim C3: on a dot-free tree position, `getParent` returns the
position's first character when its length is exactly 3 and none
otherwise, independent of the map contents. -/
theorem getParent_dotfree (pl : Smap) (id : String)
    (h : id.data.contains '.' = false) :
    (id.data.length = 3 → getParent pl id = Except.ok (some (firstCharStr id))) ∧
    (id.data.length ≠ 3 → getParent pl id = Except.ok none) := by
  have h' : '.' ∉ id.data := by simpa using h
  refine ⟨fun hl => ?_, fun hl => ?_⟩
  · have hl' : id.length = 3 := hl
    simp [getParent, h', hl']
  · have hl' : ¬ id.length = 3 := hl
    simp [getParent, h', hl']

theorem getParent_dotfree_witness :
    getParent emptyS "C06" = Except.ok (some "C") ∧
    getParent emptyS "C0" = Except.ok none := by
  constructor
  · exact (getParent_dotfree emptyS "C06" (by decide)).1 (by decide)
  · exact (getParent_dotfree emptyS "C0" (by decide)).2 (by decide)

/-- Claim C10: when the first non-blank input line is neither blank nor
the sentinel `*NEWRECORD`, the parse fails at that line (appending to
the `None` record buffer raises), so the parser is total only when every
field line is preceded by a sentinel. -/
theorem readMeSH_field_before_sentinel (blanks : List String) (L : String)
    (rest : List String)
    (hb : ∀ b ∈ blanks, pstrip b = "")
    (h1 : pstrip L ≠ "") (h2 : pstrip L ≠ "*NEWRECORD") :
    readMeSH (blanks ++ L :: rest) = Except.error () := by
  have key : ∀ bs, (∀ b ∈ bs, pstrip b = "") →
      readLoop (bs ++ L :: rest) none = Except.error () := by
    intro bs
    induction bs with
    | nil => intro _; simp [readLoop, h1, h2]
    | cons b bs ih =>
      intro hball
      have hb1 : pstrip b = "" := hball b (by simp)
      simpa [readLoop, hb1] using ih (fun x hx => hball x (by simp [hx]))
  simp [readMeSH, key blanks hb]

theorem readMeSH_field_before_sentinel_witness :
    readMeSH ["UI = X"] = Except.error () :=
  readMeSH_field_before_sentinel [] "UI = X" [] (by simp) (by decide) (by decide)

/-- Claim C9: a successful parse always begins with one record per
`topLevelTerms` entry, before any record derived from input lines; each
synthetic record has `UI` equal to the table key, `MH` equal to the
table's display name, and no `ENTRY` or `MN` fields. -/
theorem readMeSH_top_level_first (lines : List String) (out : List MRecord)
    (h : readMeSH lines = Except.ok out) :
    ∃ rest, out = topLevelTerms.map (fun p => provideEntry p.1 p.2) ++ rest ∧
      ∀ p ∈ topLevelTerms,
        getValues (provideEntry p.1 p.2) "UI" = [p.1] ∧
        getValues (provideEntry p.1 p.2) "MH" = [p.2] ∧
        getValues (provideEntry p.1 p.2) "ENTRY" = [] ∧
        getValues (provideEntry p.1 p.2) "MN" = [] := by
  unfold readMeSH at h
  cases hr : readLoop lines none with
  | error x => rw [hr] at h; cases h
  | ok rs =>
    rw [hr] at h
    simp only [Except.ok.injEq] at h
    exact ⟨rs, h.symm, fun p _ => ⟨rfl, rfl, rfl, rfl⟩⟩

theorem readMeSH_top_level_first_witness :
    ∃ rest, topLevelTerms.map (fun p => provideEntry p.1 p.2) =
        topLevelTerms.map (fun p => provideEntry p.1 p.2) ++ rest ∧
      ∀ p ∈ topLevelTerms,
        getValues (provideEntry p.1 p.2) "UI" = [p.1] ∧
        getValues (provideEntry p.1 p.2) "MH" = [p.2] ∧
        getValues (provideEntry p.1 p.2) "ENTRY" = [] ∧
        getValues (provideEntry p.1 p.2) "MN" = [] := by
  have h : readMeSH [] =
      Except.ok (topLevelTerms.map (fun p => provideEntry p.1 p.2)) := by rfl
  exact readMeSH_top_level_first [] _ h

/-- Claim C7, counterexample: on the input
`*NEWRECORD`, `*NEWRECORD`, `UI = X` the second sentinel finds an open
record buffer (the empty one opened by the first sentinel) and does not
yield it (`if entry:` is false for an empty `defaultdict`): the parse
succeeds and its output contains no empty record. -/
theorem sentinel_drops_open_empty_record :
    readMeSH ["*NEWRECORD", "*NEWRECORD", "UI = X"] =
      Except.ok (topLevelTerms.map (fun p => provideEntry p.1 p.2) ++ [[("UI", "X")]]) ∧
    ([] : MRecord) ∉ topLevelTerms.map (fun p => provideEntry p.1 p.2) ++ [[("UI", "X")]] :=
  ⟨rfl, by decide⟩

/-- Claim C7, amended: every sentinel line closes the current record and
opens a fresh empty buffer, but the closed record is yielded only when
it is open AND non-empty; an open record containing no fields (two
consecutive sentinel lines) is silently dropped, not yielded. -/
theorem sentinel_yields_iff_nonempty (ls : List String) (entry : Option MRecord) :
    readLoop ("*NEWRECORD" :: ls) entry =
      match entry with
      | some e =>
        if e = [] then readLoop ls (some [])
        else
          match readLoop ls (some []) with
          | Except.ok rest => Except.ok (e :: rest)
          | Except.error x => Except.error x
      | none => readLoop ls (some []) := by
  have h1 : pstrip "*NEWRECORD" = "*NEWRECORD" := rfl
  simp only [readLoop, h1]
  simp

theorem emitRecord_fst (pl : Smap) (r : MRecord) (ui mh : String)
    (hUI : (getValues r "UI").head? = some ui)
    (hMH : (getValues r "MH").head? = some mh) :
    emitRecord pl r =
      (["[Term]", "id: " ++ ui, "name: " ++ mh] ++ (getValues r "ENTRY").map synLine ++
        (emitIsa pl (getValues r "MN") []).1 ++
        (if (emitIsa pl (getValues r "MN") []).2 then [""] else []),
       (emitIsa pl (getValues r "MN") []).2) := by
  unfold emitRecord
  rw [hUI, hMH]
  by_cases h : (emitIsa pl (getValues r "MN") []).2 <;> simp [h]

theorem strDataAppend (a b : String) : (a ++ b).data = a.data ++ b.data := by
  cases a
  cases b
  rfl

theorem notIsa_term : isIsaLine "[Term]" = false := rfl

theorem notIsa_blank : isIsaLine "" = false := rfl

theorem notIsa_id (s : String) : isIsaLine ("id: " ++ s) = false := by
  cases s
  rfl

theorem notIsa_name (s : String) : isIsaLine ("name: " ++ s) = false := by
  cases s
  rfl

theorem notIsa_syn (v : String) : isIsaLine (synLine v) = false := by
  unfold synLine stripPipe
  cases hv : (v.data.takeWhile (fun c => c != '|')) <;>
    simp [isIsaLine, strDataAppend, List.isPrefixOf]

/-- Claim C8: every `ENTRY` value is emitted as a synonym line holding
the value truncated at its first `|` (the `|` and everything after it
discarded), rendered `synonym: "<truncated>" EXACT []`. -/
theorem emit_synonym_truncated (pl : Smap) (r : MRecord) (ui mh v : String)
    (hUI : (getValues r "UI").head? = some ui)
    (hMH : (getValues r "MH").head? = some mh)
    (hv : v ∈ getValues r "ENTRY") :
    ("synonym: \"" ++ stripPipe v ++ "\" EXACT []") ∈ (emitRecord pl r).1 := by
  rw [emitRecord_fst pl r ui mh hUI hMH]
  simp only [List.mem_append, List.mem_map]
  exact Or.inl (Or.inl (Or.inr ⟨v, hv, rfl⟩))

theorem emit_synonym_truncated_witness :
    "synonym: \"Foo Bar\" EXACT []" ∈
      (emitRecord emptyS [("UI", "D1"), ("MH", "N"), ("ENTRY", "Foo Bar|T123")]).1 := by
  have h := emit_synonym_truncated emptyS
    [("UI", "D1"), ("MH", "N"), ("ENTRY", "Foo Bar|T123")] "D1" "N" "Foo Bar|T123"
    rfl rfl (by decide)
  exact (show ("synonym: \"" ++ stripPipe "Foo Bar|T123" ++ "\" EXACT []") =
    "synonym: \"Foo Bar\" EXACT []" from rfl) ▸ h

/-- Claim C6, counterexample: a record all of whose tree positions
resolve to no parent (here `MN = AB`, dot-free of length 2) does not
complete emission normally: `"is_a: " + None` raises `TypeError`, the
stanza is cut short (no terminating blank line) and the conversion
stops. -/
theorem emit_unresolvable_tree_raises :
    emitRecord emptyS [("UI", "X"), ("MH", "N"), ("MN", "AB")] =
      (["[Term]", "id: X", "name: N"], false) := rfl

/-- Claim C6, amended: for every record with NO tree positions the
emitted stanza contains no `is_a` lines at all and emission completes
normally; a tree position that resolves to `none` instead makes the
record's emission raise rather than complete (see the counterexample). -/
theorem emit_no_trees_no_isa (pl : Smap) (r : MRecord) (ui mh : String)
    (hMN : getValues r "MN" = [])
    (hUI : (getValues r "UI").head? = some ui)
    (hMH : (getValues r "MH").head? = some mh) :
    emitRecord pl r =
      (["[Term]", "id: " ++ ui, "name: " ++ mh] ++
        (getValues r "ENTRY").map synLine ++ [""], true) ∧
    ∀ l ∈ (emitRecord pl r).1, isIsaLine l = false := by
  have hfst := emitRecord_fst pl r ui mh hUI hMH
  rw [hMN] at hfst
  have heq : emitRecord pl r =
      (["[Term]", "id: " ++ ui, "name: " ++ mh] ++
        (getValues r "ENTRY").map synLine ++ [""], true) := by
    rw [hfst]
    simp [emitIsa]
  refine ⟨heq, ?_⟩
  intro l hl
  rw [heq] at hl
  simp only [List.mem_append, List.mem_cons, List.mem_map, List.not_mem_nil,
    or_false] at hl
  rcases hl with ((h | h | h) | ⟨w, hw1, hw2⟩) | h
  · rw [h]; exact notIsa_term
  · rw [h]; exact notIsa_id ui
  · rw [h]; exact notIsa_name mh
  · rw [← hw2]; exact notIsa_syn w
  · rw [h]; exact notIsa_blank

theorem emitIsa_resolved (pl : Smap) (trees : List String) :
    ∀ seen : List String,
      (∀ t ∈ trees, ∃ p, getParent pl t = Except.ok (some p)) →
      emitIsa pl trees (seen.map some) =
        ((dedupFirst (trees.filterMap (fun t => resolvedParent pl t)) seen).map
          (fun p => "is_a: " ++ p), true) := by
  induction trees with
  | nil => intro seen _; rfl
  | cons t ts ih =>
    intro seen h
    obtain ⟨p, hp⟩ := h t (by simp)
    have hts : ∀ x ∈ ts, ∃ q, getParent pl x = Except.ok (some q) :=
      fun x hx => h x (by simp [hx])
    have hrp : resolvedParent pl t = some p := by simp [resolvedParent, hp]
    simp only [emitIsa, hp, List.filterMap_cons, hrp, dedupFirst]
    by_cases hmem : p ∈ seen
    · have hd : some p ∈ seen.map some := List.mem_map_of_mem some hmem
      rw [if_pos hd, if_pos hmem]
      exact ih seen hts
    · have hd : some p ∉ seen.map some := by simp [hmem]
      rw [if_neg hd, if_neg hmem]
      have hrec : emitIsa pl ts (some p :: seen.map some) =
          ((dedupFirst (ts.filterMap (fun x => resolvedParent pl x)) (p :: seen)).map
            (fun q => "is_a: " ++ q), true) :=
        ih (p :: seen) hts
      rw [hrec]
      simp

/-- Claim C5: for a record whose tree positions each resolve to a
parent, the emitter resolves them in order and emits exactly one `is_a`
line per distinct resolved parent, deduplicated by value in first-seen
order; in particular two positions of one record resolving to the same
parent yield one `is_a` line. -/
theorem emit_isa_dedup (pl : Smap) (r : MRecord) (ui mh : String)
    (hUI : (getValues r "UI").head? = some ui)
    (hMH : (getValues r "MH").head? = some mh)
    (hres : ∀ t ∈ getValues r "MN", ∃ p, getParent pl t = Except.ok (some p)) :
    emitRecord pl r =
      (["[Term]", "id: " ++ ui, "name: " ++ mh] ++ (getValues r "ENTRY").map synLine ++
        (dedupFirst ((getValues r "MN").filterMap (fun t => resolvedParent pl t)) []).map
          (fun p => "is_a: " ++ p) ++ [""],
       true) := by
  have hisa : emitIsa pl (getValues r "MN") [] =
      ((dedupFirst ((getValues r "MN").filterMap (fun t => resolvedParent pl t)) []).map
        (fun p => "is_a: " ++ p), true) :=
    emitIsa_resolved pl (getValues r "MN") [] hres
  rw [emitRecord_fst pl r ui mh hUI hMH, hisa]
  simp

theorem emit_isa_dedup_witness :
    emitRecord (fun x => if x = "C06.198" then some "D9" else none)
        [("UI", "D7"), ("MH", "X"), ("MN", "C06.198.100"), ("MN", "C06.198.200")] =
      (["[Term]", "id: D7", "name: X", "is_a: D9", ""], true) := by
  have h := emit_isa_dedup (fun x => if x = "C06.198" then some "D9" else none)
    [("UI", "D7"), ("MH", "X"), ("MN", "C06.198.100"), ("MN", "C06.198.200")]
    "D7" "X" rfl rfl ?hres
  · exact h.trans (by decide)
  · intro t ht
    have hmn : getValues
        [("UI", "D7"), ("MH", "X"), ("MN", "C06.198.100"), ("MN", "C06.198.200")] "MN" =
        ["C06.198.100", "C06.198.200"] := rfl
    rw [hmn] at ht
    simp only [List.mem_cons, List.not_mem_nil, or_false] at ht
    rcases ht with rfl | rfl
    · exact ⟨"D9", rfl⟩
    · exact ⟨"D9", rfl⟩

theorem insertTrees_not_mem (trees : List String) :
    ∀ (m : Smap) (ui t : String), t ∉ trees → insertTrees m trees ui t = m t := by
  induction trees with
  | nil => intro m ui t _; rfl
  | cons x xs ih =>
    intro m ui t ht
    have hx : t ≠ x := fun e => ht (by simp [e])
    have hxs : t ∉ xs := fun e => ht (by simp [e])
    show insertTrees (smapInsert m x ui) xs ui t = m t
    rw [ih _ ui t hxs]
    simp [smapInsert, hx]

theorem insertTrees_mem (trees : List String) :
    ∀ (m : Smap) (ui t : String), t ∈ trees → insertTrees m trees ui t = some ui := by
  induction trees with
  | nil => intro m ui t ht; cases ht
  | cons x xs ih =>
    intro m ui t ht
    by_cases hxs : t ∈ xs
    · exact ih _ ui t hxs
    · have hx : t = x := by
        rcases List.mem_cons.mp ht with h | h
        · exact h
        · exact absurd h hxs
      show insertTrees (smapInsert m x ui) xs ui t = some ui
      rw [insertTrees_not_mem xs _ ui t hxs]
      simp [smapInsert, hx]

theorem buildStep_total (m : Smap) (r : MRecord)
    (h : getValues r "MN" ≠ [] → getValues r "UI" ≠ []) :
    ∃ m', buildStep m r = some m' := by
  cases hmn : getValues r "MN" with
  | nil => exact ⟨m, by simp [buildStep, hmn]⟩
  | cons a l =>
    have hU : getValues r "UI" ≠ [] := h (by rw [hmn]; exact List.cons_ne_nil a l)
    cases hui : getValues r "UI" with
    | nil => exact absurd hui hU
    | cons b bl =>
      exact ⟨insertTrees m (a :: l) b, by simp [buildStep, hmn, hui]⟩

theorem buildStep_lookup_mem (m m' : Smap) (r : MRecord) (t ui : String)
    (hs : buildStep m r = some m')
    (ht : t ∈ getValues r "MN")
    (hui : (getValues r "UI").head? = some ui) :
    m' t = some ui := by
  cases hmn : getValues r "MN" with
  | nil => rw [hmn] at ht; cases ht
  | cons a l =>
    simp only [buildStep, hmn, hui] at hs
    injection hs with e
    rw [← e]
    exact insertTrees_mem (a :: l) m ui t (hmn ▸ ht)

theorem buildStep_lookup_not_mem (m m' : Smap) (r : MRecord) (t : String)
    (hs : buildStep m r = some m')
    (ht : t ∉ getValues r "MN") :
    m' t = m t := by
  cases hmn : getValues r "MN" with
  | nil =>
    simp only [buildStep, hmn] at hs
    injection hs with e
    rw [← e]
  | cons a l =>
    cases hui : (getValues r "UI").head? with
    | none =>
      simp only [buildStep, hmn, hui] at hs
      exact Option.noConfusion hs
    | some ui =>
      simp only [buildStep, hmn, hui] at hs
      injection hs with e
      rw [← e]
      exact insertTrees_not_mem (a :: l) m ui t (hmn ▸ ht)

theorem buildFrom_append (l1 : List MRecord) :
    ∀ (m : Smap) (l2 : List MRecord),
      buildFrom m (l1 ++ l2) =
        match buildFrom m l1 with
        | none => none
        | some m1 => buildFrom m1 l2 := by
  induction l1 with
  | nil => intro m l2; rfl
  | cons r rest ih =>
    intro m l2
    simp only [List.cons_append, buildFrom]
    cases buildStep m r with
    | none => rfl
    | some m1 => exact ih m1 l2

theorem buildFrom_total (rs : List MRecord) :
    ∀ m : Smap, (∀ r ∈ rs, getValues r "MN" ≠ [] → getValues r "UI" ≠ []) →
      ∃ m', buildFrom m rs = some m' := by
  induction rs with
  | nil => intro m _; exact ⟨m, rfl⟩
  | cons r rest ih =>
    intro m h
    obtain ⟨m1, h1⟩ := buildStep_total m r (h r (by simp))
    obtain ⟨m2, h2⟩ := ih m1 (fun x hx => h x (by simp [hx]))
    refine ⟨m2, ?_⟩
    simp only [buildFrom, h1]
    exact h2

theorem buildFrom_preserves (rs : List MRecord) :
    ∀ (m m' : Smap) (t : String),
      (∀ r ∈ rs, t ∉ getValues r "MN") →
      buildFrom m rs = some m' → m' t = m t := by
  induction rs with
  | nil =>
    intro m m' t _ h
    have h' : some m = some m' := h
    injection h' with e
    rw [← e]
  | cons r rest ih =>
    intro m m' t hnot h
    cases hbs : buildStep m r with
    | none => simp [buildFrom, hbs] at h
    | some m1 =>
      simp only [buildFrom, hbs] at h
      have e1 : m1 t = m t :=
        buildStep_lookup_not_mem m m1 r t hbs (hnot r (by simp))
      rw [ih m1 m' t (fun x hx => hnot x (by simp [hx])) h, e1]

/-- Claim C4: the build pass maps every tree-position entry of every
record to that record's id; when the same tree position appears on two
records, the finished map holds the id of the later record
(last-write-wins in record order).  Records with tree positions are
assumed to carry a `UI` value (otherwise the pass raises `IndexError`). -/
theorem buildParentList_last_write_wins (rs rs1 rs2 : List MRecord)
    (r : MRecord) (t : String)
    (hcond : ∀ x ∈ rs, getValues x "MN" ≠ [] → getValues x "UI" ≠ [])
    (hsplit : rs = rs1 ++ r :: rs2)
    (ht : t ∈ getValues r "MN")
    (hlast : ∀ x ∈ rs2, t ∉ getValues x "MN") :
    ∃ m ui, buildParentList rs = some m ∧
      (getValues r "UI").head? = some ui ∧ m t = some ui := by
  subst hsplit
  have hc1 : ∀ x ∈ rs1, getValues x "MN" ≠ [] → getValues x "UI" ≠ [] :=
    fun x hx => hcond x (by simp [hx])
  have hcr : getValues r "MN" ≠ [] → getValues r "UI" ≠ [] := hcond r (by simp)
  have hc2 : ∀ x ∈ rs2, getValues x "MN" ≠ [] → getValues x "UI" ≠ [] :=
    fun x hx => hcond x (by simp [hx])
  obtain ⟨m1, h1⟩ := buildFrom_total rs1 emptyS hc1
  have hMNne : getValues r "MN" ≠ [] := by
    intro e
    rw [e] at ht
    cases ht
  obtain ⟨ui, hui⟩ : ∃ ui, (getValues r "UI").head? = some ui := by
    cases hU : getValues r "UI" with
    | nil => exact absurd hU (hcr hMNne)
    | cons b bl => exact ⟨b, rfl⟩
  obtain ⟨m2, h2⟩ := buildStep_total m1 r hcr
  obtain ⟨m3, h3⟩ := buildFrom_total rs2 m2 hc2
  have hm2t : m2 t = some ui := buildStep_lookup_mem m1 m2 r t ui h2 ht hui
  have hm3t : m3 t = m2 t := buildFrom_preserves rs2 m2 m3 t hlast h3
  refine ⟨m3, ui, ?_, hui, by rw [hm3t, hm2t]⟩
  unfold buildParentList
  rw [buildFrom_append rs1 emptyS (r :: rs2), h1]
  show buildFrom m1 (r :: rs2) = some m3
  simp only [buildFrom, h2]
  exact h3

theorem buildParentList_last_write_wins_witness :
    ∃ m ui,
      buildParentList
          [[("UI", "D1"), ("MN", "T1")], [("UI", "D2"), ("MN", "T1"), ("MN", "T2")]] =
        some m ∧
      (getValues [("UI", "D2"), ("MN", "T1"), ("MN", "T2")] "UI").head? = some ui ∧
      m "T1" = some ui :=
  buildParentList_last_write_wins
    [[("UI", "D1"), ("MN", "T1")], [("UI", "D2"), ("MN", "T1"), ("MN", "T2")]]
    [[("UI", "D1"), ("MN", "T1")]] []
    [("UI", "D2"), ("MN", "T1"), ("MN", "T2")] "T1"
    (by decide) rfl (by decide) (by decide)

theorem emit_no_trees_no_isa_witness :
    emitRecord emptyS [("UI", "D1"), ("MH", "N"), ("ENTRY", "Syn|q")] =
      (["[Term]", "id: D1", "name: N", "synonym: \"Syn\" EXACT []", ""], true) ∧
    ∀ l ∈ (emitRecord emptyS [("UI", "D1"), ("MH", "N"), ("ENTRY", "Syn|q")]).1,
      isIsaLine l = false := by
  have h := emit_no_trees_no_isa emptyS [("UI", "D1"), ("MH", "N"), ("ENTRY", "Syn|q")]
    "D1" "N" rfl rfl rfl
  exact ⟨h.1.trans (by decide), h.2⟩
